import Mathlib

/-!
Verification of the post-publishing pipeline of the lakamlearn repository.

The development shallowly embeds the TypeScript sources:
* `src/unnamed/part_011` (`lib/utils.ts`): `generateSlug`, `truncateText`,
  `extractExcerpt`;
* `src/unnamed/part_000` (`app/write/page.tsx` variant): `checkSlugExists`,
  the slug-uniqueness resolution loop and `handleSave`;
* `src/unnamed/part_008` (`lib/database.ts`): the memoized query cache
  (`getCachedData` / `setCachedData`), `createPost`, `clearCache`;
* `src/lib/optimized-database.ts`: the 50-entry / 5-minute cache variant and
  `getPostBySlug`;
* `src/lib/upload-service.ts` and `src/lib/lightweight-upload.ts`: the upload
  pipelines (`validateFile`, `processImage` / `quickCompress`, `uploadImage`).

Strings are modelled as `List Char` under Lean `String`; JavaScript `Date.now()`
timestamps are `Nat` parameters; the external store is passed in explicitly
(the list of persisted posts, plus parameters for outcomes that only the
external service decides, such as an insert rejection or an image decode
failure).  All definitions are executable.
-/

namespace Lakam

/-- JavaScript's regex class `\s` (and `String.trim`), restricted to the ASCII
whitespace characters: space, tab, line feed, vertical tab, form feed and
carriage return. -/

def jsSpace (c : Char) : Bool :=
  c == ' ' || c == '\t' || c == '\n' || c == '\r' ||
    c == Char.ofNat 11 || c == Char.ofNat 12

/-- JavaScript `String.prototype.toLowerCase`, restricted to ASCII: maps
`'A'..'Z'` to `'a'..'z'` and leaves every other character unchanged.  (Titles
containing non-ASCII letters behave identically downstream because the very
next pipeline step of `generateSlug` strips every character outside
`[a-z0-9\s-]`.) -/

def jsLower (c : Char) : Char :=
  if 'A' ≤ c ∧ c ≤ 'Z' then Char.ofNat (c.toNat + 32) else c

/-- `String.prototype.trim`: drop `jsSpace` characters from both ends.
`List.rdropWhile p l = (l.reverse.dropWhile p).reverse` trims the right end. -/

def trimBoth (p : Char → Bool) (l : List Char) : List Char :=
  (l.dropWhile p).rdropWhile p

/-- Worker for `collapseRuns`: the flag records whether the previous character
was part of a run currently being collapsed. -/

def collapseAux (p : Char → Bool) (r : Char) : Bool → List Char → List Char
  | _, [] => []
  | inRun, c :: cs =>
    if p c then
      if inRun then collapseAux p r true cs else r :: collapseAux p r true cs
    else c :: collapseAux p r false cs

/-- Global regex replacement of every maximal run of characters satisfying `p`
by the single character `r`; embeds the global `replace` of the regexes `\s+`
(with `p = jsSpace`, `r = ' '`), `-+` (by `"-"`) and `\n+` (by `" "`). -/

def collapseRuns (p : Char → Bool) (r : Char) (l : List Char) : List Char :=
  collapseAux p r false l

/-- The character class `[a-z0-9\s-]` of `generateSlug`'s first `replace`:
`replace(/[^a-z0-9\s-]/g, "")` keeps exactly these characters. -/

def keepSlugChar (c : Char) : Bool :=
  decide (('a' ≤ c ∧ c ≤ 'z') ∨ ('0' ≤ c ∧ c ≤ '9')) || jsSpace c || c == '-'

/-- The chained `replace` pipeline of `generateSlug` (src/unnamed/part_011,
lines 14-27): lower-case, trim, strip `[^a-z0-9\s-]`, collapse whitespace runs
to one space, turn whitespace into hyphens, collapse hyphen runs, strip
leading/trailing hyphens. -/

def slugCore (l : List Char) : List Char :=
  trimBoth (fun c => c == '-')
    (collapseRuns (fun c => c == '-') '-'
      ((collapseRuns jsSpace ' '
          (List.filter keepSlugChar (trimBoth jsSpace (l.map jsLower)))).map
        (fun c => if jsSpace c then '-' else c)))

/-- `generateSlug` (src/unnamed/part_011, lines 8-35).  The `!title` guard
returns the fallback for the empty string; the `|| "untitled-post"` at the end
of the pipeline returns the fallback whenever the pipeline result is empty.
The `try`/`catch` cannot fire (every step is total), mirrored by this function
being total. -/

def generateSlug (title : String) : String :=
  if title.data.isEmpty then "untitled-post"
  else
    let s := slugCore title.data
    if s.isEmpty then "untitled-post" else String.mk s

/-! ### Excerpt extraction (src/unnamed/part_011, lines 108-139) -/

/-- The backtick character (used by the inline-code regex of
`extractExcerpt`). -/

def backquote : Char := Char.ofNat 96

/-- One greedy match of the regex `#{1,6}\s+` at the head of `l`: one to six
`#` characters followed by at least one whitespace character.  Returns the
input with the matched part removed (greedily consuming the whole whitespace
run), or `none` when the regex does not match at this position (in particular
when seven or more `#`s ensure every choice of one to six `#`s is followed by
another `#`). -/

def headingMatch (l : List Char) : Option (List Char) :=
  if 1 ≤ (l.takeWhile (fun c => c == '#')).length ∧
      (l.takeWhile (fun c => c == '#')).length ≤ 6 ∧
      (l.drop (l.takeWhile (fun c => c == '#')).length).head?.any jsSpace then
    some ((l.drop (l.takeWhile (fun c => c == '#')).length).dropWhile jsSpace)
  else none

/-- Worker for `rmHeadings`, structurally recursive on a fuel argument so that
it evaluates by kernel reduction.  Each scanning step consumes one unit of
fuel and strictly shortens the input (`headingMatch_length`), so fuel equal to
the input length never runs out. -/

def rmHeadingsGo : Nat → List Char → List Char
  | 0, l => l
  | _ + 1, [] => []
  | fuel + 1, c :: cs =>
    match headingMatch (c :: cs) with
    | some rest => rmHeadingsGo fuel rest
    | none => c :: rmHeadingsGo fuel cs

/-- The global replace of the regex `#{1,6}\s+` by the empty string: scan left
to right, removing each match and continuing after it. -/

def rmHeadings (l : List Char) : List Char := rmHeadingsGo l.length l

/-- Search for the lazy closing `\*\*` of the bold regex `\*\*(.*?)\*\*`:
given the input right after an opening `**`, returns the shortest group (which
may not contain a newline, since `.` does not match `\n`) together with the
remainder after the closing `**`, or `none` when no closing `**` occurs before
a newline or the end of input. -/

def boldClose : List Char → Option (List Char × List Char)
  | [] => none
  | c :: cs =>
    if c = '*' ∧ cs.head? = some '*' then some ([], cs.tail)
    else if c = '\n' then none
    else (boldClose cs).map (fun p => (c :: p.1, p.2))

/-- Worker for `rmBold`, structurally recursive on fuel (each step consumes
one unit of fuel and the remaining input strictly shrinks, by
`boldClose_length`, so fuel equal to the input length never runs out). -/

def rmBoldGo : Nat → List Char → List Char
  | 0, l => l
  | _ + 1, [] => []
  | fuel + 1, c :: cs =>
    if c = '*' ∧ cs.head? = some '*' then
      match boldClose cs.tail with
      | some (g, r) => g ++ rmBoldGo fuel r
      | none => c :: rmBoldGo fuel cs
    else c :: rmBoldGo fuel cs

/-- The global replace of the bold regex `\*\*(.*?)\*\*` by the group `$1`:
at each position, an opening `**` followed by a lazily-matched closing `**`
(no newline in between) is replaced by the group text, and scanning continues
after the match (the replacement text is not rescanned); otherwise the scan
advances one character. -/

def rmBold (l : List Char) : List Char := rmBoldGo l.length l

/-- Search for the lazy closing delimiter of the italic regex `\*(.*?)\*` and
the inline-code regex (backtick, group, backtick): given the input right after
the opening delimiter `d`, returns the shortest group (no newline) and the
remainder after the closing delimiter. -/

def delimClose (d : Char) : List Char → Option (List Char × List Char)
  | [] => none
  | c :: cs =>
    if c = d then some ([], cs)
    else if c = '\n' then none
    else (delimClose d cs).map (fun p => (c :: p.1, p.2))

/-- Worker for `rmDelim`, structurally recursive on fuel (justified by
`delimClose_length` exactly as for `rmBoldGo`). -/

def rmDelimGo (d : Char) : Nat → List Char → List Char
  | 0, l => l
  | _ + 1, [] => []
  | fuel + 1, c :: cs =>
    if c = d then
      match delimClose d cs with
      | some (g, r) => g ++ rmDelimGo d fuel r
      | none => c :: rmDelimGo d fuel cs
    else c :: rmDelimGo d fuel cs

/-- The global replace of a one-character-delimited lazy group (italic
`\*(.*?)\*` with `d = '*'`, inline code with `d` the backtick) by the group
`$1`. -/

def rmDelim (d : Char) (l : List Char) : List Char := rmDelimGo d l.length l

/-- The link step of `extractExcerpt`.  The source regex is
`\[([^\]]+)\]$$[^)]+$$` (the escaped parentheses of the link regex were mangled
into `$$` in the source).  In JavaScript without the `m` flag, `$` is a
zero-width assertion matching only at the very end of the input, so the pattern
requires the position right after `]` to be the end of the input and then
requires `[^)]+` to consume at least one further character — impossible.  The
regex therefore matches no input at all and this `replace` is the identity. -/

def removeLinks (l : List Char) : List Char := l

/-- `truncateText` (src/unnamed/part_011, lines 108-118).  `maxLength` is a
`Nat`; the JavaScript guard `maxLength <= 0` becomes `maxLength = 0`. -/

def truncateText (text : String) (maxLength : Nat) : String :=
  if text.data.isEmpty then ""
  else if maxLength = 0 then ""
  else if text.data.length ≤ maxLength then text
  else String.mk (trimBoth jsSpace (text.data.take maxLength)) ++ "..."

/-- `extractExcerpt` (src/unnamed/part_011, lines 120-139): strip headings,
bold, italic and inline code, apply the (vacuous) link replacement, collapse
newline runs to single spaces, trim, then truncate. -/

def extractExcerpt (content : String) (maxLength : Nat) : String :=
  if content.data.isEmpty then ""
  else
    let plainText :=
      trimBoth jsSpace
        (collapseRuns (fun c => c == '\n') ' '
          (removeLinks
            (rmDelim backquote
              (rmDelim '*'
                (rmBold (rmHeadings content.data))))))
    truncateText (String.mk plainText) maxLength

/-! ### Slug uniqueness resolution (src/unnamed/part_000, lines 85-88 and
133-144) -/

/-- `checkSlugExists` (src/unnamed/part_000, lines 85-88): query the posts
table for a row with exactly this slug; `!!data` is true exactly when such a
row exists.  The store is modelled by the list of persisted slugs (the
database's unique constraint keeps them pairwise distinct, so `single()`
returns the row exactly when the slug is present). -/

def checkSlugExists (slugs : List String) (slug : String) : Bool :=
  slugs.contains slug

/-- The suffixed candidate the loop builds on attempt `counter`:
the template literal `"${originalSlug}-${counter}"` (decimal numeral). -/

def suffixedSlug (orig : String) (counter : Nat) : String :=
  orig ++ "-" ++ Nat.repr counter

/-- The `while (slugExists)` loop body of `handleSave` (src/unnamed/part_000,
lines 140-144), made total with a fuel argument: the loop in the source is
unbounded, but with a finite store it always terminates within
`slugs.length + 1` attempts because the suffixed candidates are pairwise
distinct (see `resolveLoop_spec`); the fuel-exhausted branch is never reached
for the fuel used by `resolveSlug`. -/

def resolveLoop (slugs : List String) (orig : String) : Nat → Nat → String
  | counter, 0 => suffixedSlug orig counter
  | counter, fuel + 1 =>
    if checkSlugExists slugs (suffixedSlug orig counter) then
      resolveLoop slugs orig (counter + 1) fuel
    else suffixedSlug orig counter

/-- The slug-resolution phase of `handleSave` (src/unnamed/part_000, lines
133-144): keep the candidate if it is free, otherwise append `-{n}` to the
original candidate with `n` counting up from 1 until a free slug is found. -/

def resolveSlug (slugs : List String) (candidate : String) : String :=
  if checkSlugExists slugs candidate then
    resolveLoop slugs candidate 1 (slugs.length + 1)
  else candidate

/-! ### Injectivity of decimal numerals

The resolver's termination and least-suffix property rest on the suffixed
candidates `"{orig}-{n}"` being pairwise distinct, i.e. on the decimal
representation `Nat.repr` being injective.  We prove this by exhibiting the
digit list of `Nat.toDigitsCore` as a fuel-free recursion and parsing it
back. -/

/-- The decimal digit list of `n`, most significant digit first (fuel-free
counterpart of `Nat.toDigits 10`). -/

def digitsRec (n : Nat) : List Char :=
  if _h : n < 10 then [Nat.digitChar n]
  else digitsRec (n / 10) ++ [Nat.digitChar (n % 10)]
decreasing_by
  exact Nat.div_lt_self (by omega) (by omega)

/-! ### Memoized query cache

`private cache = new Map<string, { data: any; timestamp: number }>()` with
`getCachedData` / `setCachedData` appears twice: in `DatabaseService`
(src/unnamed/part_008, lines 19-36; TTL 3 minutes, cap 100) and in
`OptimizedDatabaseService` (src/lib/optimized-database.ts, lines 20-37; TTL
5 minutes, cap 50).  A JavaScript `Map` iterates in insertion order and
`set` on an existing key updates the value in place without moving the key,
which the association-list model reproduces. -/

/-- A cache entry list: key, value, `timestamp` (ms, from `Date.now()`), in
insertion order (oldest first). -/

abbrev Cache (α : Type) : Type := List (String × α × Nat)

/-- `Map.prototype.set`: update an existing key in place (keeping its
position in iteration order) or append a fresh key at the end. -/

def mapSet {α : Type} : Cache α → String → α → Nat → Cache α
  | [], k, v, ts => [(k, v, ts)]
  | (k', v', ts') :: rest, k, v, ts =>
    if k' = k then (k, v, ts) :: rest
    else (k', v', ts') :: mapSet rest k v ts

/-- `Map.prototype.delete`: remove the entry with this key (a `Map` holds at
most one entry per key). -/

def mapDelete {α : Type} (c : Cache α) (k : String) : Cache α :=
  c.eraseP (fun e => e.1 == k)

/-- `getCachedData(key)`: return the stored data if the entry exists and its
age `now - timestamp` is strictly below the TTL; otherwise delete the key and
return `null`.  Returns the possibly-shrunk cache alongside the result. -/

def getCachedData {α : Type} (ttl : Nat) (c : Cache α) (key : String) (now : Nat) :
    Option α × Cache α :=
  match c.find? (fun e => e.1 == key) with
  | some (_, v, ts) =>
    if now - ts < ttl then (some v, c) else (none, mapDelete c key)
  | none => (none, mapDelete c key)

/-- `setCachedData(key, data)`: `set` the entry with timestamp `Date.now()`,
then, if the map has grown beyond the cap, delete the oldest key
(`this.cache.keys().next().value`, the first key in insertion order). -/

def setCachedData {α : Type} (cap : Nat) (c : Cache α) (key : String) (v : α) (now : Nat) :
    Cache α :=
  if cap < (mapSet c key v now).length then
    match mapSet c key v now with
    | [] => []
    | e :: _ => mapDelete (mapSet c key v now) e.1
  else mapSet c key v now

/-- `clearCache()`: `this.cache.clear()`. -/

def clearCache {α : Type} (_c : Cache α) : Cache α := []

/-- The `DatabaseService` constants (src/unnamed/part_008): 3-minute TTL,
cap 100. -/

def dbCacheTTL : Nat := 3 * 60 * 1000

def dbCacheCap : Nat := 100

/-- The `OptimizedDatabaseService` constants (src/lib/optimized-database.ts):
5-minute TTL, cap 50. -/

def optCacheTTL : Nat := 5 * 60 * 1000

def optCacheCap : Nat := 50

/-! ### Posts, the database service and the publish paths -/

/-- A row of the `posts` table, with the columns the publish paths write. -/

structure PostRec where
  title : String
  slug : String
  content : String
  excerpt : String
  cover_image_url : Option String
  author_id : String
  category_id : Option String
  published : Bool
deriving DecidableEq, Repr

/-- The state visible to `DatabaseService`: the persisted posts (in insertion
order) plus the memoized query cache.  Only the `post_{slug}` entries of the
cache matter for the claims under verification, so cached values are modelled
as `PostRec`s. -/

structure DbState where
  posts : List PostRec
  cache : Cache PostRec
deriving DecidableEq

/-- An error reported by the store for an `insert`.  The store's unique
constraint on `slug` surfaces as `uniqueViolation`; anything else is
`storeError`. -/

inductive InsertError where
  | uniqueViolation
  | storeError (msg : String)
deriving DecidableEq, Repr

/-- `DatabaseService.createPost` (src/unnamed/part_008, lines 165-213):
pre-check the slug, insert, clear the whole cache on success.  The outcome of
the store's `insert` call is the parameter `insertErr` (the pre-checked slug
can still be rejected when a concurrent publish claimed it between the check
and the insert).  The `addStatsToSinglePost` step only decorates the returned
row with like/comment counts and is omitted. -/

def createPost (st : DbState) (pd : PostRec) (insertErr : Option InsertError) :
    Except String PostRec × DbState :=
  if st.posts.any (fun p => p.slug == pd.slug) then
    (Except.error "A post with this title already exists. Please choose a different title.", st)
  else
    match insertErr with
    | some _ => (Except.error "Failed to create post", st)
    | none =>
      (Except.ok pd, { posts := st.posts ++ [pd], cache := clearCache st.cache })

/-- Result of the `WritePage.handleSave` flow. -/

inductive SaveOutcome where
  | missingInfo
  | uploadFailed
  | publishFailed
  | saved (slug : String)
deriving DecidableEq, Repr

/-- `WritePage.handleSave` (src/unnamed/part_000, lines 90-196), the publish
path that talks to the store directly (`supabase.from("posts").insert(...)`):
validate title/content, upload the cover image if one was selected
(`coverFile = some r` with `r` the upload outcome, `none` meaning no file was
selected), resolve the slug against the current posts, derive the excerpt,
then insert exactly once.  `insertErr` is the store's verdict on that single
insert.  The returned `Nat` counts the insert attempts performed.  Note that
this path never touches the `DatabaseService` cache. -/

def handleSaveDirect (st : DbState) (title content excerpt : String)
    (categoryId : Option String) (authorId : String) (published : Bool)
    (coverFile : Option (Option String)) (insertErr : Option InsertError) :
    SaveOutcome × DbState × Nat :=
  if (trimBoth jsSpace title.data).isEmpty ∨ (trimBoth jsSpace content.data).isEmpty then
    (SaveOutcome.missingInfo, st, 0)
  else
    match coverFile with
    | some none => (SaveOutcome.uploadFailed, st, 0)
    | cover =>
      let coverUrl : Option String := match cover with
        | some (some url) => some url
        | _ => none
      let slug := resolveSlug (st.posts.map (fun p => p.slug)) (generateSlug title)
      let finalExcerpt :=
        if (trimBoth jsSpace excerpt.data).isEmpty then extractExcerpt content 200
        else String.mk (trimBoth jsSpace excerpt.data)
      match insertErr with
      | some _ => (SaveOutcome.publishFailed, st, 1)
      | none =>
        (SaveOutcome.saved slug,
          { st with posts := st.posts ++
              [{ title := String.mk (trimBoth jsSpace title.data)
                 slug := slug
                 content := String.mk (trimBoth jsSpace content.data)
                 excerpt := finalExcerpt
                 cover_image_url := coverUrl
                 author_id := authorId
                 category_id := categoryId
                 published := published }] },
          1)

/-- `OptimizedDatabaseService.getPostBySlug` (src/lib/optimized-database.ts,
lines 147-198): serve a fresh `post_{slug}` cache entry if present, otherwise
query the store for a row with this slug *and* `published = true` (`PGRST116`,
i.e. no row, yields `{ data: null, error: null }`), caching a found row.  The
like/comment counts decorating the row are omitted. -/

def getPostBySlug (st : DbState) (slug : String) (now : Nat) :
    Option PostRec × DbState :=
  match getCachedData optCacheTTL st.cache ("post_" ++ slug) now with
  | (some p, c') => (some p, { st with cache := c' })
  | (none, c') =>
    match st.posts.find? (fun p => p.slug == slug && p.published) with
    | none => (none, { st with cache := c' })
    | some p =>
      (some p, { st with cache := setCachedData optCacheCap c' ("post_" ++ slug) p now })

/-! ### Image upload pipelines -/

/-- The metadata of a `File` relevant to validation and the processing
control flow. -/

structure FileRec where
  name : String
  size : Nat
  type : String
deriving DecidableEq, Repr

/-- Outcome of handing a file to an `Image` element plus `canvas.toBlob`:
either the image decodes (`decoded`, with `blobOk` telling whether `toBlob`
produced a blob) or decoding fails and `img.onerror` fires. -/

inductive DecodeOutcome where
  | decoded (blobOk : Bool)
  | decodeFailed
deriving DecidableEq, Repr

/-- Result of an upload: the public URL or the error message, plus whether
the storage `upload` (put) call was reached. -/

structure UploadResult where
  url : Option String
  error : Option String
  putAttempted : Bool
deriving DecidableEq, Repr

/-- `UploadService.validateFile` (src/lib/upload-service.ts, lines 72-86):
5 MB ceiling, JPEG/PNG/WebP/GIF. -/

def usValidateFile (f : FileRec) : Option String :=
  if 5 * 1024 * 1024 < f.size then
    some "File too large. Maximum size is 5MB"
  else if !(["image/jpeg", "image/png", "image/webp", "image/gif"].contains f.type) then
    some "Invalid file type. Please use JPEG, PNG, WebP, or GIF"
  else none

/-- `UploadService.processImage` (src/lib/upload-service.ts, lines 88-146):
on decode failure the promise is *rejected* with "Failed to load image"; a
null blob rejects with "Failed to process image"; otherwise the re-encoded
file keeps the original name and gets type `image/png` or `image/jpeg`.  The
canvas resize arithmetic (floating point) does not affect control flow and is
not modelled. -/

def usProcessImage (f : FileRec) (dec : DecodeOutcome) : Except String FileRec :=
  match dec with
  | DecodeOutcome.decodeFailed => Except.error "Failed to load image"
  | DecodeOutcome.decoded blobOk =>
    if blobOk then
      Except.ok { f with type := if f.type = "image/png" then "image/png" else "image/jpeg" }
    else Except.error "Failed to process image"

/-- `UploadService.uploadImage` (src/lib/upload-service.ts, lines 16-70):
validate, process, then put to storage.  A rejection from `processImage` is
caught by the surrounding `try`/`catch`, which returns
`{ url: null, error: error.message }` — before any storage call.
`putFails` is the storage layer's verdict on the put; `publicUrl` the URL the
storage layer resolves on success. -/

def usUploadImage (f : FileRec) (dec : DecodeOutcome) (putFails : Bool)
    (publicUrl : String) : UploadResult :=
  match usValidateFile f with
  | some e => { url := none, error := some e, putAttempted := false }
  | none =>
    match usProcessImage f dec with
    | Except.error msg => { url := none, error := some msg, putAttempted := false }
    | Except.ok _ =>
      if putFails then { url := none, error := some "upload failed", putAttempted := true }
      else { url := some publicUrl, error := none, putAttempted := true }

/-- `LightweightUploadService.validateFile` (src/lib/lightweight-upload.ts,
lines 65-67): 3 MB ceiling, JPEG/PNG/WebP. -/

def lwValidateFile (f : FileRec) : Bool :=
  f.size ≤ 3 * 1024 * 1024 && ["image/jpeg", "image/png", "image/webp"].contains f.type

/-- `LightweightUploadService.quickCompress` (src/lib/lightweight-upload.ts,
lines 74-114): files under 1 MB are returned untouched; `img.onerror` and a
null blob both *resolve with the original file*; a successful re-encode keeps
the name and the original type (only the byte payload changes, which the
`FileRec` metadata does not track). -/

def lwQuickCompress (f : FileRec) (dec : DecodeOutcome) : FileRec :=
  if f.size < 1024 * 1024 then f
  else
    match dec with
    | DecodeOutcome.decodeFailed => f
    | DecodeOutcome.decoded _ => f

/-- `LightweightUploadService.uploadImage` (src/lib/lightweight-upload.ts,
lines 13-63): validate, `quickCompress` (which never fails), then put. -/

def lwUploadImage (f : FileRec) (dec : DecodeOutcome) (putFails : Bool)
    (publicUrl : String) : UploadResult :=
  if !lwValidateFile f then
    { url := none, error := some "Invalid file. Use JPEG, PNG, or WebP under 3MB.",
      putAttempted := false }
  else
    let _processed := lwQuickCompress f dec
    if putFails then { url := none, error := some "upload failed", putAttempted := true }
    else { url := some publicUrl, error := none, putAttempted := true }

/-! ### Structural facts about `generateSlug` -/

/-- The output alphabet of `generateSlug`: lowercase letters, digits and the
hyphen, i.e. the class `[a-z0-9-]`. -/

def goodSlugChar (c : Char) : Bool :=
  decide (('a' ≤ c ∧ c ≤ 'z') ∨ ('0' ≤ c ∧ c ≤ '9') ∨ c = '-')

/-- A concrete draft post with slug `"s"`, used for concrete instantiations. -/

def draftPost : PostRec :=
  { title := "T", slug := "s", content := "body", excerpt := "e",
    cover_image_url := none, author_id := "u1", category_id := none,
    published := false }

/-- The same post as it looked while still published (the shape of a cache
entry written before the post was unpublished). -/

def stalePost : PostRec := { draftPost with published := true }

/-- A valid 2 MB JPEG upload. -/

def jpegFile : FileRec :=
  { name := "photo.jpg", size := 2 * 1024 * 1024, type := "image/jpeg" }

theorem headingMatch_length {l rest : List Char} (h : headingMatch l = some rest) :
    rest.length < l.length := by
  unfold headingMatch at h
  split at h
  · rename_i hcond
    obtain ⟨hk1, _, hhead⟩ := hcond
    cases h
    have h1 : ((l.drop (l.takeWhile (fun c => c == '#')).length).dropWhile jsSpace).length
        ≤ (l.drop (l.takeWhile (fun c => c == '#')).length).length :=
      (List.dropWhile_suffix jsSpace).sublist.length_le
    have h2 : (l.drop (l.takeWhile (fun c => c == '#')).length).length
        = l.length - (l.takeWhile (fun c => c == '#')).length := by
      simp
    have h3 : 1 ≤ l.length := by
      by_contra hc
      have : l = [] := by
        cases l with
        | nil => rfl
        | cons a as => simp at hc
      subst this
      simp at hk1
    omega
  · cases h

theorem boldClose_length :
    ∀ {l g r : List Char}, boldClose l = some (g, r) → r.length + 2 ≤ l.length := by
  intro l
  induction l with
  | nil => intro g r h; simp [boldClose] at h
  | cons c cs ih =>
    intro g r h
    rw [boldClose] at h
    split at h
    · rename_i hc
      cases h
      cases cs with
      | nil => simp at hc
      | cons d ds => simp
    · split at h
      · cases h
      · rw [Option.map_eq_some'] at h
        obtain ⟨⟨g', r'⟩, hg, he⟩ := h
        cases he
        have := ih hg
        simpa using Nat.le_succ_of_le this

theorem delimClose_length {d : Char} :
    ∀ {l g r : List Char}, delimClose d l = some (g, r) → r.length + 1 ≤ l.length := by
  intro l
  induction l with
  | nil => intro g r h; simp [delimClose] at h
  | cons c cs ih =>
    intro g r h
    rw [delimClose] at h
    split at h
    · cases h; simp
    · split at h
      · cases h
      · rw [Option.map_eq_some'] at h
        obtain ⟨⟨g', r'⟩, hg, he⟩ := h
        cases he
        have := ih hg
        simpa using Nat.le_succ_of_le this

theorem toDigitsCore_eq_digitsRec :
    ∀ fuel n ds, n < fuel → Nat.toDigitsCore 10 fuel n ds = digitsRec n ++ ds := by
  intro fuel
  induction fuel with
  | zero => intro n ds h; omega
  | succ f ih =>
    intro n ds h
    rw [Nat.toDigitsCore]
    by_cases h10 : n < 10
    · have hdiv : n / 10 = 0 := Nat.div_eq_of_lt h10
      have hmod : n % 10 = n := Nat.mod_eq_of_lt h10
      simp only [hdiv, if_pos rfl, hmod]
      rw [digitsRec, dif_pos h10]
      simp
    · have hdiv : ¬ n / 10 = 0 := by omega
      rw [if_neg hdiv]
      have hlt : n / 10 < f := by omega
      rw [ih (n / 10) (Nat.digitChar (n % 10) :: ds) hlt]
      conv_rhs => rw [digitsRec]
      rw [dif_neg h10]
      simp

theorem digitChar_toNat {n : Nat} (h : n < 10) : (Nat.digitChar n).toNat = 48 + n := by
  interval_cases n <;> rfl

/-- Folding the decimal digits of `n` on top of accumulator `a` recovers
`a * 10 ^ (number of digits) + n`. -/

theorem foldl_digitsRec (n : Nat) :
    ∀ a : Nat,
      (digitsRec n).foldl (fun a c => a * 10 + (c.toNat - 48)) a
        = a * 10 ^ (digitsRec n).length + n := by
  induction n using Nat.strong_induction_on with
  | _ n ih =>
    intro a
    by_cases h10 : n < 10
    · rw [digitsRec, dif_pos h10]
      simp [digitChar_toNat h10]
    · rw [digitsRec, dif_neg h10]
      have hlt : n / 10 < n := Nat.div_lt_self (by omega) (by omega)
      rw [List.foldl_append, ih (n / 10) hlt a]
      have hmod : n % 10 < 10 := Nat.mod_lt _ (by omega)
      simp only [List.foldl_cons, List.foldl_nil, digitChar_toNat hmod,
        List.length_append, List.length_singleton]
      have : 48 + n % 10 - 48 = n % 10 := by omega
      rw [this, pow_succ]
      have := Nat.div_add_mod n 10
      ring_nf
      omega

theorem digitsRec_inj {n m : Nat} (h : digitsRec n = digitsRec m) : n = m := by
  have hn := foldl_digitsRec n 0
  have hm := foldl_digitsRec m 0
  rw [h] at hn
  omega

theorem natRepr_inj {n m : Nat} (h : Nat.repr n = Nat.repr m) : n = m := by
  apply digitsRec_inj
  have hdata : (Nat.repr n).data = (Nat.repr m).data := by rw [h]
  unfold Nat.repr at hdata
  rw [Nat.toDigits, Nat.toDigits] at hdata
  rw [toDigitsCore_eq_digitsRec (n + 1) n [] (Nat.lt_succ_self n)] at hdata
  rw [toDigitsCore_eq_digitsRec (m + 1) m [] (Nat.lt_succ_self m)] at hdata
  simpa [List.asString] using hdata

theorem suffixedSlug_inj (orig : String) {i j : Nat}
    (h : suffixedSlug orig i = suffixedSlug orig j) : i = j := by
  apply natRepr_inj
  have hdata : (suffixedSlug orig i).data = (suffixedSlug orig j).data := by rw [h]
  unfold suffixedSlug at hdata
  simp only [String.data_append] at hdata
  exact String.ext (List.append_cancel_left hdata)

/-- As long as some attempt index within the fuel window is free, the loop
stops at the *least* free index at or beyond the current counter. -/

theorem resolveLoop_spec (slugs : List String) (orig : String) :
    ∀ fuel counter,
      (∃ i, counter ≤ i ∧ i < counter + fuel ∧
          checkSlugExists slugs (suffixedSlug orig i) = false) →
      ∃ n, counter ≤ n ∧
        resolveLoop slugs orig counter fuel = suffixedSlug orig n ∧
        checkSlugExists slugs (suffixedSlug orig n) = false ∧
        ∀ m, counter ≤ m → m < n → checkSlugExists slugs (suffixedSlug orig m) = true := by
  intro fuel
  induction fuel with
  | zero =>
    intro counter ⟨i, h1, h2, _⟩
    omega
  | succ f ih =>
    intro counter ⟨i, h1, h2, hfree⟩
    rw [resolveLoop]
    by_cases hc : checkSlugExists slugs (suffixedSlug orig counter) = true
    · rw [if_pos hc]
      have hne : i ≠ counter := by
        intro he
        rw [he, hc] at hfree
        cases hfree
      obtain ⟨n, hn1, hn2, hn3, hn4⟩ := ih (counter + 1) ⟨i, by omega, by omega, hfree⟩
      exact ⟨n, by omega, hn2, hn3, fun m hm1 hm2 => by
        by_cases hme : m = counter
        · rw [hme]; exact hc
        · exact hn4 m (by omega) hm2⟩
    · rw [if_neg hc]
      refine ⟨counter, le_refl _, rfl, by
        cases hb : checkSlugExists slugs (suffixedSlug orig counter)
        · rfl
        · exact absurd hb hc, fun m hm1 hm2 => by omega⟩

/-- Within the first `slugs.length + 1` attempts some suffixed candidate is
free: the candidates are pairwise distinct (`suffixedSlug_inj`), so at most
`slugs.length` of them can collide with the store. -/

theorem exists_free_suffix (slugs : List String) (orig : String) :
    ∃ i, 1 ≤ i ∧ i < 1 + (slugs.length + 1) ∧
      checkSlugExists slugs (suffixedSlug orig i) = false := by
  by_contra hall
  push_neg at hall
  have hmem : ∀ i, 1 ≤ i → i < slugs.length + 2 → suffixedSlug orig i ∈ slugs := by
    intro i h1 h2
    have := hall i h1 (by omega)
    have hc : checkSlugExists slugs (suffixedSlug orig i) = true := by
      cases hb : checkSlugExists slugs (suffixedSlug orig i)
      · exact absurd hb this
      · rfl
    simpa [checkSlugExists] using hc
  set cand : List String := (List.range' 1 (slugs.length + 1)).map (suffixedSlug orig) with hcand
  have hnodup : cand.Nodup := by
    refine List.Nodup.map ?_ ?_
    · intro a b hab
      exact suffixedSlug_inj orig hab
    · exact List.nodup_range' 1 (slugs.length + 1) 1 (by omega)
  have hsub : cand ⊆ slugs := by
    intro s hs
    rw [hcand, List.mem_map] at hs
    obtain ⟨i, hi, rfl⟩ := hs
    rw [List.mem_range'_1] at hi
    exact hmem i hi.1 (by omega)
  have hlen : cand.length ≤ slugs.length := (hnodup.subperm hsub).length_le
  have : cand.length = slugs.length + 1 := by simp [hcand]
  omega

theorem mem_trimBoth {p : Char → Bool} {l : List Char} {c : Char}
    (h : c ∈ trimBoth p l) : c ∈ l := by
  unfold trimBoth at h
  have h1 := ( List.rdropWhile_prefix p (l.dropWhile p)).sublist.subset h
  exact (List.dropWhile_suffix p).sublist.subset h1

theorem mem_collapseAux {p : Char → Bool} {r : Char} :
    ∀ (b : Bool) (l : List Char) {c : Char}, c ∈ collapseAux p r b l → c ∈ l ∨ c = r := by
  intro b l
  induction l generalizing b with
  | nil => intro c h; simp [collapseAux] at h
  | cons a as ih =>
    intro c h
    rw [collapseAux] at h
    by_cases hp : p a = true
    · rw [if_pos hp] at h
      cases b with
      | true =>
        rcases ih true h with h' | h'
        · exact Or.inl (List.mem_cons_of_mem a h')
        · exact Or.inr h'
      | false =>
        rw [if_neg Bool.false_ne_true] at h
        rcases List.mem_cons.mp h with h' | h'
        · exact Or.inr h'
        · rcases ih true h' with h'' | h''
          · exact Or.inl (List.mem_cons_of_mem a h'')
          · exact Or.inr h''
    · rw [if_neg hp] at h
      rcases List.mem_cons.mp h with h' | h'
      · exact Or.inl (by rw [h']; exact List.mem_cons_self a as)
      · rcases ih false h' with h'' | h''
        · exact Or.inl (List.mem_cons_of_mem a h'')
        · exact Or.inr h''

theorem head?_collapseAux_true {p : Char → Bool} {r : Char} :
    ∀ (l : List Char) {c : Char}, (collapseAux p r true l).head? = some c → p c = false := by
  intro l
  induction l with
  | nil => intro c h; simp [collapseAux] at h
  | cons a as ih =>
    intro c h
    rw [collapseAux] at h
    by_cases hp : p a = true
    · rw [if_pos hp, if_pos rfl] at h
      exact ih h
    · rw [if_neg hp] at h
      simp only [List.head?_cons, Option.some.injEq] at h
      subst h
      exact Bool.eq_false_iff.mpr hp

theorem chain'_collapseAux {p : Char → Bool} {r : Char} :
    ∀ (b : Bool) (l : List Char),
      List.Chain' (fun a b => p a = false ∨ p b = false) (collapseAux p r b l) := by
  intro b l
  induction l generalizing b with
  | nil => exact List.chain'_nil
  | cons a as ih =>
    rw [collapseAux]
    by_cases hp : p a = true
    · rw [if_pos hp]
      cases b with
      | true => exact ih true
      | false =>
        rw [if_neg Bool.false_ne_true]
        rw [List.chain'_cons']
        refine ⟨?_, ih true⟩
        intro y hy
        exact Or.inr (head?_collapseAux_true as hy)
    · rw [if_neg hp]
      rw [List.chain'_cons']
      refine ⟨?_, ih false⟩
      intro y _
      exact Or.inl (Bool.eq_false_iff.mpr hp)

theorem collapseAux_eq_self_of_not {p : Char → Bool} {r : Char} {l : List Char}
    (h : ∀ c ∈ l, p c = false) : ∀ b, collapseAux p r b l = l := by
  induction l with
  | nil => intro b; rfl
  | cons a as ih =>
    intro b
    rw [collapseAux, if_neg (by rw [h a (List.mem_cons_self a as)]; simp)]
    rw [ih (fun c hc => h c (List.mem_cons_of_mem a hc)) false]

theorem collapseAux_id {p : Char → Bool} {r : Char} :
    ∀ l : List Char, List.Chain' (fun a b => p a = false ∨ p b = false) l →
      (∀ c ∈ l, p c = true → c = r) →
      collapseAux p r false l = l ∧
        ((∀ c, l.head? = some c → p c = false) → collapseAux p r true l = l) := by
  intro l
  induction l with
  | nil => exact fun _ _ => ⟨rfl, fun _ => rfl⟩
  | cons a as ih =>
    intro hchain hall
    rw [List.chain'_cons'] at hchain
    obtain ⟨hhead, htail⟩ := hchain
    have ihs := ih htail (fun c hc => hall c (List.mem_cons_of_mem a hc))
    constructor
    · rw [collapseAux]
      by_cases hp : p a = true
      · rw [if_pos hp]
        rw [if_neg Bool.false_ne_true]
        have ha : a = r := hall a (List.mem_cons_self a as) hp
        have htl : collapseAux p r true as = as := by
          apply ihs.2
          intro c hc
          rcases hhead c hc with h' | h'
          · rw [hp] at h'; cases h'
          · exact h'
        rw [htl, ha]
      · rw [if_neg hp, ihs.1]
    · intro hh
      rw [collapseAux]
      have hp : p a = false := hh a rfl
      rw [if_neg (by rw [hp]; simp), ihs.1]

theorem head?_dropWhile {p : Char → Bool} :
    ∀ (l : List Char) {c : Char}, (l.dropWhile p).head? = some c → p c = false := by
  intro l
  induction l with
  | nil => intro c h; cases h
  | cons a as ih =>
    intro c h
    by_cases hp : p a = true
    · rw [List.dropWhile_cons_of_pos hp] at h
      exact ih h
    · rw [List.dropWhile_cons_of_neg hp] at h
      simp only [List.head?_cons, Option.some.injEq] at h
      subst h
      exact Bool.eq_false_iff.mpr hp

theorem headOfPre {l₁ l₂ : List Char} {c : Char} (hp : l₁ <+: l₂)
    (h : l₁.head? = some c) : l₂.head? = some c := by
  obtain ⟨t, rfl⟩ := hp
  cases l₁ with
  | nil => cases h
  | cons a as => simpa using h

theorem reverse_trimBoth (p : Char → Bool) (l : List Char) :
    (trimBoth p l).reverse = (l.dropWhile p).reverse.dropWhile p := by
  unfold trimBoth List.rdropWhile
  rw [List.reverse_reverse]

theorem head?_trimBoth {p : Char → Bool} {l : List Char} {c : Char}
    (h : (trimBoth p l).head? = some c) : p c = false := by
  have hpre : trimBoth p l <+: l.dropWhile p := List.rdropWhile_prefix p _
  exact head?_dropWhile l (headOfPre hpre h)

theorem head?_reverse_trimBoth {p : Char → Bool} {l : List Char} {c : Char}
    (h : (trimBoth p l).reverse.head? = some c) : p c = false := by
  rw [reverse_trimBoth] at h
  exact head?_dropWhile _ h

theorem trimBoth_eq_self {p : Char → Bool} {l : List Char}
    (hhead : ∀ c, l.head? = some c → p c = false)
    (hlast : ∀ c, l.reverse.head? = some c → p c = false) :
    trimBoth p l = l := by
  have h1 : l.dropWhile p = l := by
    cases l with
    | nil => rfl
    | cons a as =>
      exact List.dropWhile_cons_of_neg (by rw [hhead a rfl]; simp)
  unfold trimBoth List.rdropWhile
  rw [h1]
  have h2 : l.reverse.dropWhile p = l.reverse := by
    cases hr : l.reverse with
    | nil => rfl
    | cons a as =>
      exact List.dropWhile_cons_of_neg (by rw [hlast a (by rw [hr]; rfl)]; simp)
  rw [h2, List.reverse_reverse]

theorem map_eq_self_of {f : Char → Char} {l : List Char} (h : ∀ c ∈ l, f c = c) :
    l.map f = l := by
  induction l with
  | nil => rfl
  | cons a as ih =>
    rw [List.map_cons, h a (List.mem_cons_self a as),
      ih (fun c hc => h c (List.mem_cons_of_mem a hc))]

theorem good_jsLower {c : Char} (h : goodSlugChar c = true) : jsLower c = c := by
  rw [goodSlugChar, decide_eq_true_iff] at h
  unfold jsLower
  rcases h with h | h | h
  · rw [if_neg]
    rintro ⟨_, h2⟩
    exact absurd (le_trans h.1 h2) (by decide)
  · rw [if_neg]
    rintro ⟨h1, _⟩
    exact absurd (le_trans h1 h.2) (by decide)
  · subst h
    rw [if_neg (by decide)]

theorem good_not_space {c : Char} (h : goodSlugChar c = true) : jsSpace c = false := by
  cases hsp : jsSpace c
  · rfl
  · exfalso
    rw [goodSlugChar, decide_eq_true_iff] at h
    unfold jsSpace at hsp
    simp only [Bool.or_eq_true, beq_iff_eq] at hsp
    rcases hsp with ((((h' | h') | h') | h') | h') | h' <;>
      (subst h'; revert h; decide)

theorem good_keep {c : Char} (h : goodSlugChar c = true) : keepSlugChar c = true := by
  rw [goodSlugChar, decide_eq_true_iff] at h
  unfold keepSlugChar
  rcases h with h | h | h
  · simp [decide_eq_true_iff, h]
  · simp [decide_eq_true_iff, h]
  · subst h; simp

/-- Every character that `slugCore` emits lies in `[a-z0-9-]`. -/

theorem slugCore_good {l : List Char} : ∀ c ∈ slugCore l, goodSlugChar c = true := by
  intro c hc
  unfold slugCore at hc
  have hc5 := mem_trimBoth hc
  rcases mem_collapseAux false _ hc5 with hc4 | hc4
  · rw [List.mem_map] at hc4
    obtain ⟨d, hd3, hde⟩ := hc4
    by_cases hds : jsSpace d = true
    · rw [← hde, if_pos hds]
      decide
    · rw [← hde, if_neg hds]
      rcases mem_collapseAux false _ hd3 with hd2 | hd2
      · have hkeep := List.of_mem_filter hd2
        rw [keepSlugChar] at hkeep
        simp only [Bool.or_eq_true, decide_eq_true_iff, beq_iff_eq] at hkeep
        rw [goodSlugChar, decide_eq_true_iff]
        rcases hkeep with ((h' | h') | h') | h'
        · exact Or.inl h'
        · exact Or.inr (Or.inl h')
        · exact absurd h' hds
        · exact Or.inr (Or.inr h')
      · subst hd2
        exact absurd (show jsSpace ' ' = true by decide) hds
  · subst hc4
    decide

/-- `slugCore` emits no two adjacent hyphens. -/

theorem slugCore_chain {l : List Char} :
    List.Chain' (fun a b => (a == '-') = false ∨ (b == '-') = false) (slugCore l) := by
  unfold slugCore
  refine List.Chain'.prefix ?_ ( List.rdropWhile_prefix _ _)
  refine List.Chain'.suffix ?_ (List.dropWhile_suffix _)
  exact chain'_collapseAux false _

/-- `slugCore` emits no leading and no trailing hyphen. -/

theorem slugCore_ends {l : List Char} :
    (∀ c, (slugCore l).head? = some c → (c == '-') = false) ∧
      (∀ c, (slugCore l).reverse.head? = some c → (c == '-') = false) := by
  constructor
  · intro c hc
    unfold slugCore at hc
    exact @head?_trimBoth (fun c => c == '-') _ c hc
  · intro c hc
    unfold slugCore at hc
    exact @head?_reverse_trimBoth (fun c => c == '-') _ c hc

/-- `slugCore` is the identity on its own output. -/

theorem slugCore_fixed {s : List Char}
    (hgood : ∀ c ∈ s, goodSlugChar c = true)
    (hchain : List.Chain' (fun a b => (a == '-') = false ∨ (b == '-') = false) s)
    (hhead : ∀ c, s.head? = some c → (c == '-') = false)
    (hlast : ∀ c, s.reverse.head? = some c → (c == '-') = false) :
    slugCore s = s := by
  unfold slugCore
  have hnospace : ∀ c ∈ s, jsSpace c = false := fun c hc => good_not_space (hgood c hc)
  have e1 : s.map jsLower = s := map_eq_self_of (fun c hc => good_jsLower (hgood c hc))
  rw [e1]
  have e2 : trimBoth jsSpace s = s := by
    apply trimBoth_eq_self
    · intro c hc
      exact hnospace c (List.mem_of_mem_head? hc)
    · intro c hc
      exact hnospace c (by
        have := List.mem_of_mem_head? hc
        rwa [List.mem_reverse] at this)
  rw [e2]
  have e3 : s.filter keepSlugChar = s :=
    List.filter_eq_self.mpr (fun c hc => good_keep (hgood c hc))
  rw [e3]
  have e4 : collapseRuns jsSpace ' ' s = s :=
    collapseAux_eq_self_of_not hnospace false
  rw [e4]
  have e5 : s.map (fun c => if jsSpace c then '-' else c) = s :=
    map_eq_self_of (fun c hc => by rw [if_neg (by rw [hnospace c hc]; simp)])
  rw [e5]
  have e6 : collapseRuns (fun c => c == '-') '-' s = s :=
    (collapseAux_id s hchain (fun c _ hc => by simpa using hc)).1
  rw [e6]
  exact trimBoth_eq_self hhead hlast

/-! ### Claim theorems -/

/-- C5: `generateSlug` realises the documented pipeline (lower-case, trim,
strip characters outside `[a-z0-9\s-]`, collapse whitespace, hyphenate,
collapse and trim hyphens) and returns the literal fallback `"untitled-post"`
whenever the pipeline result would be empty; in particular
`slugify("Hello, World!") = "hello-world"` and `slugify("")` and
`slugify("   ---   ")` both yield `"untitled-post"`.  `generateSlug` is a
total Lean function, mirroring that the source never throws (its `catch` is
unreachable). -/

theorem generateSlug_spec :
    generateSlug "Hello, World!" = "hello-world" ∧
      generateSlug "" = "untitled-post" ∧
      generateSlug "   ---   " = "untitled-post" ∧
      ∀ t : String, slugCore t.data = [] → generateSlug t = "untitled-post" := by
  refine ⟨by decide, by decide, by decide, ?_⟩
  intro t ht
  unfold generateSlug
  by_cases he : t.data.isEmpty
  · rw [if_pos he]
  · rw [if_neg he]
    simp [ht]

/-- C5 witness: the fallback clause of `generateSlug_spec` applied to the
all-punctuation title `"!!!"`. -/

theorem generateSlug_spec_witness : generateSlug "!!!" = "untitled-post" :=
  generateSlug_spec.2.2.2 "!!!" (by decide)

/-- C9: `generateSlug` is idempotent — slugifying an already generated slug
is a no-op. -/

theorem generateSlug_idem (t : String) :
    generateSlug (generateSlug t) = generateSlug t := by
  have hfall : generateSlug "untitled-post" = "untitled-post" := by decide
  by_cases he : t.data.isEmpty
  · rw [show generateSlug t = "untitled-post" by rw [generateSlug, if_pos he]]
    exact hfall
  · by_cases hs : (slugCore t.data).isEmpty
    · rw [show generateSlug t = "untitled-post" by
        rw [generateSlug, if_neg he]; simp only [hs]; rfl]
      exact hfall
    · have hval : generateSlug t = String.mk (slugCore t.data) := by
        rw [generateSlug, if_neg he]
        simp only [hs]
        rfl
      rw [hval]
      have hne : slugCore t.data ≠ [] := by
        intro hc
        rw [hc] at hs
        exact hs rfl
      have hdat : (String.mk (slugCore t.data)).data = slugCore t.data := rfl
      rw [generateSlug, hdat]
      have hemp : (slugCore t.data).isEmpty = false := by
        cases hq : slugCore t.data with
        | nil => exact absurd hq hne
        | cons a as => rfl
      rw [if_neg (by rw [hemp]; simp)]
      have hfix : slugCore (slugCore t.data) = slugCore t.data :=
        slugCore_fixed slugCore_good slugCore_chain slugCore_ends.1 slugCore_ends.2
      simp only [hfix, hemp]
      rfl

/-- C7 (amended): every slug `generateSlug` derives from a title is nonempty
and drawn from the lowercase alphabet `[a-z0-9-]`; the 100-character bound
asserted by the claim does not hold — `generateSlug` never truncates (see
`generateSlug_no_length_cap`). -/

theorem generateSlug_charset (t : String) :
    generateSlug t ≠ "" ∧ ∀ c ∈ (generateSlug t).data, goodSlugChar c = true := by
  have hfall : ("untitled-post" : String) ≠ "" ∧
      ∀ c ∈ ("untitled-post" : String).data, goodSlugChar c = true := by
    refine ⟨by decide, by decide⟩
  unfold generateSlug
  by_cases he : t.data.isEmpty
  · rw [if_pos he]; exact hfall
  · rw [if_neg he]
    by_cases hs : (slugCore t.data).isEmpty
    · simp only [hs]
      exact hfall
    · simp only [hs]
      rw [if_neg Bool.false_ne_true]
      have hne : slugCore t.data ≠ [] := by
        cases hq : slugCore t.data with
        | nil => rw [hq] at hs; exact absurd rfl hs
        | cons a as => simp
      constructor
      · intro hc
        have : (String.mk (slugCore t.data)).data = ("" : String).data := by rw [hc]
        exact hne this
      · intro c hc
        exact slugCore_good c hc

/-- C7 witness: `generateSlug_charset` applied to `"Hello, World!"`, checking
the first output character. -/

theorem generateSlug_charset_witness :
    generateSlug "Hello, World!" ≠ "" ∧ goodSlugChar 'h' = true :=
  ⟨(generateSlug_charset "Hello, World!").1,
    (generateSlug_charset "Hello, World!").2 'h' (by decide)⟩

/-- C7 counterexample: a title of 101 letters produces a 101-character slug,
so the claimed 100-character bound fails. -/

theorem generateSlug_no_length_cap :
    ¬ (generateSlug (String.mk (List.replicate 101 'a'))).length ≤ 100 := by decide

/-- C6: `resolveSlug` returns the candidate itself when no post carries that
slug; otherwise it returns `candidate ++ "-" ++ n` for the least `n ≥ 1` whose
suffixed slug is free, each suffix being applied to the *original* candidate;
in particular, resolving `"my-post"` against an existing `"my-post"` yields
`"my-post-1"`, and against `{"my-post", "my-post-1"}` yields `"my-post-2"`. -/

theorem resolveSlug_least_free (slugs : List String) (c : String) :
    (c ∉ slugs → resolveSlug slugs c = c) ∧
      (c ∈ slugs →
        ∃ n, 1 ≤ n ∧ resolveSlug slugs c = suffixedSlug c n ∧
          suffixedSlug c n ∉ slugs ∧
          ∀ m, 1 ≤ m → m < n → suffixedSlug c m ∈ slugs) ∧
      resolveSlug ["my-post"] "my-post" = "my-post-1" ∧
      resolveSlug ["my-post", "my-post-1"] "my-post" = "my-post-2" := by
  have hmem : ∀ (s : String), checkSlugExists slugs s = true ↔ s ∈ slugs := by
    intro s
    unfold checkSlugExists
    exact List.elem_iff
  refine ⟨?_, ?_, by decide, by decide⟩
  · intro hnot
    unfold resolveSlug
    rw [if_neg (by
      intro hc
      exact hnot ((hmem c).mp hc))]
  · intro hin
    unfold resolveSlug
    rw [if_pos ((hmem c).mpr hin)]
    obtain ⟨i, hi1, hi2, hifree⟩ := exists_free_suffix slugs c
    obtain ⟨n, hn1, hn2, hn3, hn4⟩ :=
      resolveLoop_spec slugs c (slugs.length + 1) 1 ⟨i, hi1, by omega, hifree⟩
    refine ⟨n, hn1, hn2, ?_, ?_⟩
    · intro hc
      rw [(hmem _).mpr hc] at hn3
      cases hn3
    · intro m hm1 hm2
      exact (hmem _).mp (hn4 m hm1 hm2)

/-- C6 witness: the least-suffix clause applied to the store
`{"my-post", "my-post-1"}` and candidate `"my-post"`. -/

theorem resolveSlug_least_free_witness :
    ∃ n, 1 ≤ n ∧
      resolveSlug ["my-post", "my-post-1"] "my-post" = suffixedSlug "my-post" n ∧
      suffixedSlug "my-post" n ∉ ["my-post", "my-post-1"] ∧
      ∀ m, 1 ≤ m → m < n → suffixedSlug "my-post" m ∈ ["my-post", "my-post-1"] :=
  (resolveSlug_least_free ["my-post", "my-post-1"] "my-post").2.1 (by decide)

theorem find?_mapSet {α : Type} (k : String) (v : α) (ts : Nat) :
    ∀ c : Cache α, (mapSet c k v ts).find? (fun e => e.1 == k) = some (k, v, ts) := by
  intro c
  induction c with
  | nil => simp [mapSet, List.find?]
  | cons e rest ih =>
    obtain ⟨k', v', ts'⟩ := e
    rw [mapSet]
    by_cases hk : k' = k
    · rw [if_pos hk]
      simp [List.find?]
    · rw [if_neg hk]
      rw [List.find?]
      have : ((k', v', ts').1 == k) = false := by simpa using hk
      rw [this]
      exact ih

theorem mapSet_of_find?_none {α : Type} {k : String} {c : Cache α}
    (h : c.find? (fun e => e.1 == k) = none) (v : α) (ts : Nat) :
    mapSet c k v ts = c ++ [(k, v, ts)] := by
  induction c with
  | nil => rfl
  | cons e rest ih =>
    obtain ⟨k', v', ts'⟩ := e
    rw [List.find?] at h
    by_cases hk : k' = k
    · rw [show ((k', v', ts').1 == k) = true by simpa using hk] at h
      cases h
    · rw [show ((k', v', ts').1 == k) = false by simpa using hk] at h
      rw [mapSet, if_neg hk, ih h]
      rfl

theorem length_mapSet_le {α : Type} (k : String) (v : α) (ts : Nat) :
    ∀ c : Cache α, (mapSet c k v ts).length ≤ c.length + 1 := by
  intro c
  induction c with
  | nil => simp [mapSet]
  | cons e rest ih =>
    obtain ⟨k', v', ts'⟩ := e
    rw [mapSet]
    by_cases hk : k' = k
    · rw [if_pos hk]; simp
    · rw [if_neg hk]
      simp only [List.length_cons]
      omega

/-- C8: the memoized query cache (`getCachedData` / `setCachedData`, with cap
50/TTL 5 min in `OptimizedDatabaseService` and cap 100/TTL 3 min in
`DatabaseService`): a `set` followed by an immediate `get` of the same key
returns the value; a `get` of an entry whose age strictly exceeds the TTL
returns `none` and deletes that entry; both operations keep the cache at or
below the cap; and when an insertion of a fresh key overflows the cap, exactly
the oldest-inserted entry is evicted. -/

theorem cache_spec {α : Type} (cap ttl : Nat) (hcap : 0 < cap) (httl : 0 < ttl)
    (c : Cache α) (hlen : c.length ≤ cap) (k : String) (v : α) (now : Nat) :
    (getCachedData ttl (setCachedData cap c k v now) k now).1 = some v ∧
      (∀ v' ts, c.find? (fun e => e.1 == k) = some (k, v', ts) → ttl < now - ts →
        getCachedData ttl c k now = (none, mapDelete c k)) ∧
      (setCachedData cap c k v now).length ≤ cap ∧
      (getCachedData ttl c k now).2.length ≤ cap ∧
      (c.length = cap → c.find? (fun e => e.1 == k) = none →
        setCachedData cap c k v now = c.tail ++ [(k, v, now)]) := by
  have hget : ∀ (c' : Cache α) (k' : String) (v' : α) (ts' : Nat),
      c'.find? (fun e => e.1 == k) = some (k', v', ts') →
      getCachedData ttl c' k now
        = if now - ts' < ttl then (some v', c') else (none, mapDelete c' k) := by
    intro c' k' v' ts' hf
    unfold getCachedData
    rw [hf]
  have hmiss : ∀ c' : Cache α, c'.find? (fun e => e.1 == k) = none →
      getCachedData ttl c' k now = (none, mapDelete c' k) := by
    intro c' hf
    unfold getCachedData
    rw [hf]
  refine ⟨?_, ?_, ?_, ?_, ?_⟩
  · -- get after set
    by_cases hover : cap < (mapSet c k v now).length
    · -- eviction: only possible when the key is fresh
      have hfresh : c.find? (fun e => e.1 == k) = none := by
        cases hf : c.find? (fun e => e.1 == k) with
        | none => rfl
        | some e =>
          exfalso
          -- an in-place update cannot grow the map beyond the cap
          have hsame : (mapSet c k v now).length ≤ c.length := by
            clear hover hlen
            induction c with
            | nil => cases hf
            | cons e' rest ih =>
              obtain ⟨k', v', ts'⟩ := e'
              rw [mapSet]
              by_cases hk : k' = k
              · rw [if_pos hk]; simp
              · rw [if_neg hk]
                rw [List.find?, show ((k', v', ts').1 == k) = false by simpa using hk] at hf
                simp only [List.length_cons]
                exact Nat.succ_le_succ (ih hf)
          omega
      obtain ⟨e, rest, rfl⟩ : ∃ e rest, c = e :: rest := by
        cases c with
        | nil =>
          exfalso
          rw [mapSet_of_find?_none hfresh v now] at hover
          simp at hover
          omega
        | cons e rest => exact ⟨e, rest, rfl⟩
      rw [setCachedData, if_pos hover, mapSet_of_find?_none hfresh v now]
      show (getCachedData ttl (mapDelete (e :: (rest ++ [(k, v, now)])) e.1) k now).1
        = some v
      rw [show mapDelete (e :: (rest ++ [(k, v, now)])) e.1 = rest ++ [(k, v, now)] from by
        unfold mapDelete
        exact List.eraseP_cons_of_pos (by simp)]
      have hrest : rest.find? (fun x => x.1 == k) = none := by
        rw [List.find?] at hfresh
        cases hbe : (e.1 == k) with
        | true => rw [hbe] at hfresh; cases hfresh
        | false => rw [hbe] at hfresh; exact hfresh
      have hfind : (rest ++ [(k, v, now)]).find? (fun e => e.1 == k) = some (k, v, now) := by
        rw [List.find?_append, hrest]
        simp [List.find?]
      rw [hget _ _ _ _ hfind, if_pos (by omega)]
    · rw [setCachedData, if_neg hover]
      rw [hget _ _ _ _ (find?_mapSet k v now c), if_pos (by omega)]
  · -- lazy expiry deletes the stale entry
    intro v' ts hf hage
    rw [hget _ _ _ _ hf, if_neg (by omega)]
  · -- set keeps the cache at the cap
    by_cases hover : cap < (mapSet c k v now).length
    · rw [setCachedData, if_pos hover]
      have hle := length_mapSet_le k v now c
      cases hm : mapSet c k v now with
      | nil => simp
      | cons e rest =>
        show (mapDelete (e :: rest) e.1).length ≤ cap
        rw [show mapDelete (e :: rest) e.1 = rest from by
          unfold mapDelete
          exact List.eraseP_cons_of_pos (by simp)]
        rw [hm] at hle
        simp only [List.length_cons] at hle
        omega
    · rw [setCachedData, if_neg hover]
      omega
  · -- get never grows the cache
    cases hf : c.find? (fun e => e.1 == k) with
    | some e =>
      obtain ⟨k', v', ts'⟩ := e
      rw [hget _ _ _ _ hf]
      by_cases hfr : now - ts' < ttl
      · rw [if_pos hfr]
        exact hlen
      · rw [if_neg hfr]
        show (mapDelete c k).length ≤ cap
        have h1 : List.Sublist (c.eraseP (fun e => e.1 == k)) c := List.eraseP_sublist c
        have h2 := h1.length_le
        unfold mapDelete
        omega
    | none =>
      rw [hmiss _ hf]
      show (mapDelete c k).length ≤ cap
      have h1 : List.Sublist (c.eraseP (fun e => e.1 == k)) c := List.eraseP_sublist c
      have h2 := h1.length_le
      unfold mapDelete
      omega
  · -- overflow evicts exactly the oldest entry
    intro hfull hfresh
    obtain ⟨e, rest, rfl⟩ : ∃ e rest, c = e :: rest := by
      cases c with
      | nil =>
        exfalso
        simp at hfull
        omega
      | cons e rest => exact ⟨e, rest, rfl⟩
    have hover : cap < (mapSet (e :: rest) k v now).length := by
      rw [mapSet_of_find?_none hfresh v now]
      simp only [List.length_append, List.length_cons] at hfull ⊢
      simp
      omega
    rw [setCachedData, if_pos hover, mapSet_of_find?_none hfresh v now]
    show mapDelete (e :: (rest ++ [(k, v, now)])) e.1 = (e :: rest).tail ++ [(k, v, now)]
    rw [show mapDelete (e :: (rest ++ [(k, v, now)])) e.1 = rest ++ [(k, v, now)] from by
      unfold mapDelete
      exact List.eraseP_cons_of_pos (by simp)]
    rfl

/-- C8 witness: `cache_spec` at the `OptimizedDatabaseService` constants
(cap 50, TTL 5 minutes) on a one-entry cache. -/

theorem cache_spec_witness :
    (getCachedData optCacheTTL
        (setCachedData optCacheCap ([("posts_a", 7, 0)] : Cache Nat) "post_b" 9 1000)
        "post_b" 1000).1 = some 9 :=
  (cache_spec optCacheCap optCacheTTL (by decide) (by decide)
    [("posts_a", 7, 0)] (by decide) "post_b" 9 1000).1

/-- C10 counterexample: with a fresh `post_s` cache entry written while the
post was still published, `getPostBySlug` returns the stale published copy
even though the stored post now has `published = false` — the claimed "empty
result for draft posts" fails on such reachable states. -/

theorem getPostBySlug_stale_cache :
    (getPostBySlug { posts := [draftPost], cache := [("post_s", stalePost, 0)] } "s" 0).1
        = some stalePost ∧
      draftPost.published = false ∧ draftPost.slug = "s" := by
  refine ⟨?_, by decide, by decide⟩
  decide

/-- C10 (amended): when the memoized cache holds no fresh entry for
`post_{slug}` (in particular on a first lookup), `getPostBySlug` of a slug
whose stored posts are all unpublished returns the empty result — the query
filters on `published = true`.  With a fresh stale cache entry the cached copy
is returned instead (see the counterexample). -/

theorem getPostBySlug_draft_hidden (st : DbState) (slug : String) (now : Nat)
    (hcache : (getCachedData optCacheTTL st.cache ("post_" ++ slug) now).1 = none)
    (hdraft : ∀ p ∈ st.posts, p.slug = slug → p.published = false) :
    (getPostBySlug st slug now).1 = none := by
  unfold getPostBySlug
  rcases hg : getCachedData optCacheTTL st.cache ("post_" ++ slug) now with ⟨o, c'⟩
  rw [hg] at hcache
  simp only at hcache
  subst hcache
  cases hfind : st.posts.find? (fun p => p.slug == slug && p.published) with
  | none => rfl
  | some p =>
    exfalso
    have hp := List.find?_some hfind
    have hmem := List.mem_of_find?_eq_some hfind
    simp only [Bool.and_eq_true, beq_iff_eq] at hp
    have := hdraft p hmem hp.1
    rw [hp.2] at this
    cases this

/-- C10 witness: a draft post is invisible to `getPostBySlug` when the cache
is empty. -/

theorem getPostBySlug_draft_hidden_witness :
    (getPostBySlug { posts := [draftPost], cache := [] } "s" 0).1 = none :=
  getPostBySlug_draft_hidden { posts := [draftPost], cache := [] } "s" 0
    (by decide) (by decide)

/-- C1 counterexample: the direct-insert publish path of
`WritePage.handleSave` (src/unnamed/part_000) succeeds — it persists the post
— while leaving the non-empty memoized query cache exactly as it was, so "all
publish paths clear the cache before returning" fails. -/

theorem handleSave_no_cache_clear :
    (handleSaveDirect { posts := [], cache := [("posts_x", stalePost, 0)] }
          "My Post" "Hello there, this is my first article." "" none "u1" true
          none none).1
        = SaveOutcome.saved "my-post" ∧
      (handleSaveDirect { posts := [], cache := [("posts_x", stalePost, 0)] }
          "My Post" "Hello there, this is my first article." "" none "u1" true
          none none).2.1.cache
        = [("posts_x", stalePost, 0)] := by
  constructor
  · decide
  · decide

/-- C1 (amended): `DatabaseService.createPost` performs a full cache clear
before returning whenever the insert succeeds, but the direct-insert
`WritePage.handleSave` path never touches the memoized cache (on any
outcome), so not every publish path clears it. -/

theorem publish_cache_discipline :
    (∀ (st : DbState) (pd : PostRec) (r : PostRec) (st' : DbState),
        createPost st pd none = (Except.ok r, st') → st'.cache = []) ∧
      (∀ (st : DbState) (title content excerpt : String) (categoryId : Option String)
          (authorId : String) (published : Bool) (coverFile : Option (Option String))
          (insertErr : Option InsertError),
        (handleSaveDirect st title content excerpt categoryId authorId published
            coverFile insertErr).2.1.cache = st.cache) := by
  constructor
  · intro st pd r st' h
    unfold createPost at h
    by_cases hex : st.posts.any (fun p => p.slug == pd.slug)
    · rw [if_pos hex] at h
      cases h
    · rw [if_neg hex] at h
      simp only at h
      have : st' = { posts := st.posts ++ [pd], cache := clearCache st.cache } := by
        cases h
        rfl
      rw [this]
      rfl
  · intro st title content excerpt categoryId authorId published coverFile insertErr
    unfold handleSaveDirect
    by_cases hval : (trimBoth jsSpace title.data).isEmpty = true
        ∨ (trimBoth jsSpace content.data).isEmpty = true
    · rw [if_pos hval]
    · rw [if_neg hval]
      match coverFile with
      | some none => rfl
      | none =>
        cases insertErr with
        | some e => rfl
        | none => rfl
      | some (some url) =>
        cases insertErr with
        | some e => rfl
        | none => rfl

/-- C1 witness: a concrete successful `createPost` leaves an empty cache. -/

theorem publish_cache_discipline_witness :
    ({ posts := [draftPost], cache := [] } : DbState).cache = [] :=
  publish_cache_discipline.1 { posts := [], cache := [("posts_x", stalePost, 0)] }
    draftPost draftPost { posts := [draftPost], cache := [] } rfl

/-- C2 counterexample: a publish whose single insert is rejected with a
uniqueness violation (a race: the slug was free at resolution time) surfaces
the failure immediately after exactly one insert attempt — no automatic
re-resolution and re-insert happens, unlike the claimed retry-once policy. -/

theorem handleSave_no_retry :
    handleSaveDirect { posts := [], cache := [] } "My Post" "content here" "" none "u1"
        true none (some InsertError.uniqueViolation)
      = (SaveOutcome.publishFailed, { posts := [], cache := [] }, 1) := by
  decide

/-- C2 (amended): no publish path retries a failed insert.  The direct-insert
`handleSave` path performs at most one insert attempt, and whenever its insert
fails (in particular with `uniqueViolation`) the operation surfaces
`publishFailed` without a second attempt; `DatabaseService.createPost`
likewise returns the error and an unchanged state when the store rejects its
single insert. -/

theorem publish_no_retry :
    (∀ (st : DbState) (title content excerpt : String) (categoryId : Option String)
        (authorId : String) (published : Bool) (coverFile : Option (Option String))
        (insertErr : Option InsertError),
      (handleSaveDirect st title content excerpt categoryId authorId published
          coverFile insertErr).2.2 ≤ 1) ∧
      (∀ (st : DbState) (title content excerpt : String) (categoryId : Option String)
          (authorId : String) (published : Bool) (coverFile : Option (Option String))
          (e : InsertError),
        (handleSaveDirect st title content excerpt categoryId authorId published
            coverFile (some e)).1 = SaveOutcome.publishFailed ∨
          (handleSaveDirect st title content excerpt categoryId authorId published
              coverFile (some e)).2.2 = 0) ∧
      (∀ (st : DbState) (pd : PostRec) (e : InsertError),
        (createPost st pd (some e)).2 = st ∧
          ∃ msg, (createPost st pd (some e)).1 = Except.error msg) := by
  refine ⟨?_, ?_, ?_⟩
  · intro st title content excerpt categoryId authorId published coverFile insertErr
    unfold handleSaveDirect
    by_cases hval : (trimBoth jsSpace title.data).isEmpty = true
        ∨ (trimBoth jsSpace content.data).isEmpty = true
    · rw [if_pos hval]
      exact Nat.zero_le 1
    · rw [if_neg hval]
      match coverFile with
      | some none => exact Nat.zero_le 1
      | none =>
        cases insertErr with
        | some e => exact le_refl 1
        | none => exact le_refl 1
      | some (some url) =>
        cases insertErr with
        | some e => exact le_refl 1
        | none => exact le_refl 1
  · intro st title content excerpt categoryId authorId published coverFile e
    unfold handleSaveDirect
    by_cases hval : (trimBoth jsSpace title.data).isEmpty = true
        ∨ (trimBoth jsSpace content.data).isEmpty = true
    · rw [if_pos hval]
      exact Or.inr rfl
    · rw [if_neg hval]
      match coverFile with
      | some none => exact Or.inr rfl
      | none => exact Or.inl rfl
      | some (some url) => exact Or.inl rfl
  · intro st pd e
    unfold createPost
    by_cases hex : st.posts.any (fun p => p.slug == pd.slug)
    · rw [if_pos hex]
      exact ⟨rfl, _, rfl⟩
    · rw [if_neg hex]
      exact ⟨rfl, _, rfl⟩

/-- C3 counterexample: a valid 2 MB JPEG whose decode fails makes
`UploadService.uploadImage` return the rejection message `"Failed to load
image"` without reaching the storage put — the decode failure *does* surface
as an error instead of falling back to the original file. -/

theorem usUpload_decode_error :
    usUploadImage jpegFile DecodeOutcome.decodeFailed false "https://x/y.jpg"
      = { url := none, error := some "Failed to load image", putAttempted := false } := by
  decide

/-- C3 (amended): the two pipelines differ on decode failure.
`LightweightUploadService.quickCompress` falls back to the original file and
its upload still reaches the storage put, but `UploadService.processImage`
rejects, so `UploadService.uploadImage` returns the error before any storage
call (its `ProcessingFailed` path is reachable). -/

theorem upload_decode_failure_paths :
    (∀ f : FileRec, lwQuickCompress f DecodeOutcome.decodeFailed = f) ∧
      (∀ (f : FileRec) (putFails : Bool) (publicUrl : String),
        lwValidateFile f = true →
          (lwUploadImage f DecodeOutcome.decodeFailed putFails publicUrl).putAttempted
            = true) ∧
      (∀ (f : FileRec) (putFails : Bool) (publicUrl : String),
        usValidateFile f = none →
          usUploadImage f DecodeOutcome.decodeFailed putFails publicUrl
            = { url := none, error := some "Failed to load image",
                putAttempted := false }) := by
  refine ⟨?_, ?_, ?_⟩
  · intro f
    unfold lwQuickCompress
    by_cases hsz : f.size < 1024 * 1024
    · rw [if_pos hsz]
    · rw [if_neg hsz]
  · intro f putFails publicUrl hval
    unfold lwUploadImage
    rw [hval]
    cases putFails <;> rfl
  · intro f putFails publicUrl hval
    unfold usUploadImage
    rw [hval]
    rfl

/-- C3 witness: the lightweight path still puts a valid 2 MB JPEG whose
decode failed. -/

theorem upload_decode_failure_paths_witness :
    (lwUploadImage jpegFile DecodeOutcome.decodeFailed false "https://x/y.jpg").putAttempted
      = true :=
  upload_decode_failure_paths.2.1 jpegFile false "https://x/y.jpg" (by decide)

/-- C4: `extractExcerpt` does strip heading markers, bold markers, collapse
newlines, trim and truncate (second conjunct, the claim's concrete example),
but it does *not* replace link syntax `[text](url)` by `text`: the link
regex's escaped parentheses were mangled into `$$` end-of-input anchors, so it
can never match (contradicting the adjacent source comment), and the link
markup survives verbatim (first conjunct). -/

theorem extractExcerpt_links_not_stripped :
    extractExcerpt "[text](url)" 100 = "[text](url)" ∧
      extractExcerpt "# Title\n\nSome **bold** text" 100 = "Title Some bold text" := by
  constructor
  · decide
  · decide

end Lakam
